import Mathlib

/-!
Verification of the M/M/1 discrete-event queue simulator
(`mm1_queue_simulation.py`) against its specification.

Modelling choices (shallow embedding):
* Python floats are modelled by `ℚ`; `float('inf')` (used as the
  "no departure pending" sentinel) is modelled by `Option ℚ` with
  `none` standing for infinity.
* The random source is modelled by an explicit stream `u : ℕ → ℚ` of
  standard-exponential draws together with an index `idx` carried in the
  state; `np.random.exponential(scale=1.0/rate)` returns
  `(1/rate) * u idx` (numpy scales a standard exponential draw by the
  scale parameter).  Exponential draws are non-negative, which claims
  assume through the hypothesis `∀ k, 0 ≤ u k` where needed.
* Python's insertion-ordered dict `state_time` is an association list
  `List (ℤ × ℚ)`; `state_time[k] = state_time.get(k, 0) + d` is `bump`.
* The `while` loop is embedded with explicit fuel; for every fuel value
  the resulting state is a state the Python loop reaches.
* Fallible operations (Python's `ZeroDivisionError` from `1.0/rate` and
  `x / simulation_time`, and numpy's `ValueError` on a negative scale)
  are modelled by an `Except`-valued layer (`stepE`, `runE`,
  `simulate_mm1_queue`); the total functions (`stepT`, `runT`,
  `simulateValid`) coincide with it for positive rates and nonzero
  horizon (`simulate_mm1_queue_ok`).
-/

namespace MM1

/-- A customer record `(arrival_time, service_start_time, departure_time)`,
as appended to `customer_stats`. -/
abbrev Customer := ℚ × ℚ × ℚ

/-- Comparison `a <= b` where `b` is a Python float that may be
`float('inf')` (modelled by `none`). -/
def leQO (a : ℚ) : Option ℚ → Bool
  | none => true
  | some b => decide (a ≤ b)

/-- Comparison `a > b` where `a` is a possibly-infinite Python float
(`none` models `float('inf')`). -/
def qoGT : Option ℚ → ℚ → Bool
  | none, _ => true
  | some a, b => decide (b < a)

/-- Python `state_time[k] = state_time.get(k, 0) + d` on an
insertion-ordered dict: update the value in place when the key is
present, append `(k, d)` at the end otherwise. -/
def bump : List (ℤ × ℚ) → ℤ → ℚ → List (ℤ × ℚ)
  | [], k, d => [(k, d)]
  | (k0, v) :: rest, k, d =>
    if k = k0 then (k0, v + d) :: rest else (k0, v) :: bump rest k d

/-- Sum of all values of the state-time ledger. -/
def ledgerSum (m : List (ℤ × ℚ)) : ℚ := (m.map Prod.snd).sum

/-- The mutable state of `simulate_mm1_queue`, lines 10–24 of the
source.  `idx` is the position of the next unread random draw. -/
structure SimState where
  current_time : ℚ
  server_busy : Bool
  server_start_time : ℚ
  next_departure_time : Option ℚ
  queue : List ℚ
  customer_stats : List Customer
  last_event_time : ℚ
  state_time : List (ℤ × ℚ)
  current_state : ℤ
  next_arrival_time : ℚ
  idx : ℕ
  deriving Repr, DecidableEq

/-- Initial simulation state (source lines 10–24): time 0, idle server,
empty line, ledger `{0: 0.0}`, first arrival drawn from the stream. -/
def initState (arrival_rate : ℚ) (u : ℕ → ℚ) : SimState :=
  { current_time := 0
    server_busy := false
    server_start_time := 0
    next_departure_time := none
    queue := []
    customer_stats := []
    last_event_time := 0
    state_time := [(0, 0)]
    current_state := 0
    next_arrival_time := (1 / arrival_rate) * u 0
    idx := 1 }

/-- The arrival branch of the event loop (source lines 30–52). -/
def stepArrival (arrival_rate service_rate : ℚ) (u : ℕ → ℚ) (s : SimState) :
    SimState :=
  let t := s.next_arrival_time
  let st := bump s.state_time s.current_state (t - s.last_event_time)
  let na := t + (1 / arrival_rate) * u s.idx
  if s.server_busy then
    { s with
      state_time := st
      last_event_time := t
      current_time := t
      next_arrival_time := na
      idx := s.idx + 1
      queue := s.queue ++ [t]
      current_state := s.current_state + 1 }
  else
    let svc := (1 / service_rate) * u (s.idx + 1)
    { s with
      state_time := st
      last_event_time := t
      current_time := t
      next_arrival_time := na
      idx := s.idx + 2
      server_busy := true
      server_start_time := t
      next_departure_time := some (t + svc)
      customer_stats := s.customer_stats ++ [(t, t, t + svc)]
      current_state := s.current_state + 1 }

/-- The departure branch of the event loop (source lines 54–75).  The
branch is only reached when a departure is pending; when
`next_departure_time` is the infinity sentinel the state is returned
unchanged (that case is unreachable, since the arrival branch wins the
comparison against infinity). -/
def stepDeparture (service_rate : ℚ) (u : ℕ → ℚ) (s : SimState) : SimState :=
  match s.next_departure_time with
  | none => s
  | some d =>
    let st := bump s.state_time s.current_state (d - s.last_event_time)
    match s.queue with
    | [] =>
      { s with
        state_time := st
        last_event_time := d
        current_time := d
        current_state := s.current_state - 1
        server_busy := false
        next_departure_time := none }
    | a :: rest =>
      let svc := (1 / service_rate) * u s.idx
      { s with
        state_time := st
        last_event_time := d
        current_time := d
        current_state := s.current_state - 1
        queue := rest
        next_departure_time := some (d + svc)
        customer_stats := s.customer_stats ++ [(a, d, d + svc)]
        server_start_time := d
        idx := s.idx + 1 }

/-- One iteration of the event loop body (source lines 28–75): the
arrival branch is taken when `next_arrival_time <= next_departure_time`
(arrival wins exact ties), the departure branch otherwise. -/
def stepT (arrival_rate service_rate : ℚ) (u : ℕ → ℚ) (s : SimState) :
    SimState :=
  if leQO s.next_arrival_time s.next_departure_time then
    stepArrival arrival_rate service_rate u s
  else
    stepDeparture service_rate u s

/-- The event loop `while current_time < simulation_time` (source
line 27), with explicit fuel. -/
def runT (arrival_rate service_rate simulation_time : ℚ) (u : ℕ → ℚ) :
    ℕ → SimState → SimState
  | 0, s => s
  | fuel + 1, s =>
    if s.current_time < simulation_time then
      runT arrival_rate service_rate simulation_time u fuel
        (stepT arrival_rate service_rate u s)
    else s

/-- Final ledger update (source line 78): attribute the remaining
`simulation_time - last_event_time` to the final population count. -/
def finalizeLedger (simulation_time : ℚ) (s : SimState) : SimState :=
  { s with
    state_time :=
      bump s.state_time s.current_state (simulation_time - s.last_event_time) }

/-- The result record returned by `simulate_mm1_queue`
(source lines 116–128). -/
structure SimResult where
  total_customers : ℕ
  completed_customers : ℕ
  total_system_time : ℚ
  total_queue_time : ℚ
  server_busy_time : ℚ
  average_system_time : ℚ
  average_queue_time : ℚ
  server_utilization : ℚ
  average_system_length : ℚ
  average_queue_length : ℚ
  state_probabilities : List (ℤ × ℚ)
  deriving Repr, DecidableEq

/-- Sum of service intervals `departure - service_start` over completed
customers (`departure_time <= simulation_time`), the loop of source
lines 91–97 restricted to the `server_busy_time` accumulator. -/
def completedBusy (l : List Customer) (simulation_time : ℚ) : ℚ :=
  ((l.filter fun r => decide (r.2.2 ≤ simulation_time)).map
    fun r => r.2.2 - r.2.1).sum

/-- The statistics phase (source lines 80–128), computed from the state
after the final ledger update. -/
def computeStats (simulation_time : ℚ) (s : SimState) : SimResult :=
  let stats := s.customer_stats
  let completedList := stats.filter fun r => decide (r.2.2 ≤ simulation_time)
  let system_times := completedList.map fun r => r.2.2 - r.1
  let queue_times := completedList.map fun r => r.2.1 - r.1
  let busy0 := completedBusy stats simulation_time
  let server_busy_time :=
    busy0 +
      (if s.server_busy && qoGT s.next_departure_time simulation_time then
        simulation_time - s.server_start_time
      else 0)
  { total_customers := stats.length
    completed_customers := completedList.length
    total_system_time := system_times.sum
    total_queue_time := queue_times.sum
    server_busy_time := server_busy_time
    average_system_time :=
      if system_times = [] then 0 else system_times.sum / system_times.length
    average_queue_time :=
      if queue_times = [] then 0 else queue_times.sum / queue_times.length
    server_utilization := server_busy_time / simulation_time
    average_system_length :=
      ((s.state_time.map fun p => (p.1 : ℚ) * p.2).sum) / simulation_time
    average_queue_length :=
      ((s.state_time.map fun p => ((max 0 (p.1 - 1) : ℤ) : ℚ) * p.2).sum) /
        simulation_time
    state_probabilities :=
      s.state_time.map fun p => (p.1, p.2 / simulation_time) }

/-- State of the simulation after the event loop, starting from the
initial state. -/
def finalSimState (arrival_rate service_rate simulation_time : ℚ)
    (u : ℕ → ℚ) (fuel : ℕ) : SimState :=
  runT arrival_rate service_rate simulation_time u fuel
    (initState arrival_rate u)

/-- The whole run of `simulate_mm1_queue` on a sample stream, as a total
function (valid for positive rates and nonzero horizon, where the
Python code raises no exception; see `simulate_mm1_queue_ok`). -/
def simulateValid (arrival_rate service_rate simulation_time : ℚ)
    (u : ℕ → ℚ) (fuel : ℕ) : SimResult :=
  computeStats simulation_time
    (finalizeLedger simulation_time
      (finalSimState arrival_rate service_rate simulation_time u fuel))

/-- The exceptions the Python code can raise while simulating:
`ZeroDivisionError` from `1.0/rate` (rate zero) and from the divisions
by `simulation_time` in the statistics phase, and numpy's `ValueError`
from `np.random.exponential` on a negative scale. -/
inductive SimErr where
  | zeroDivisionError
  | valueError
  deriving Repr, DecidableEq

/-- Faithful model of `np.random.exponential(scale=1.0/rate)` consuming
the sample `x`: `1.0/rate` raises `ZeroDivisionError` when `rate = 0`,
numpy raises `ValueError` when the scale is negative, otherwise the
draw is the scale times a standard-exponential sample. -/
def expDraw (rate x : ℚ) : Except SimErr ℚ :=
  if rate = 0 then .error .zeroDivisionError
  else if 1 / rate < 0 then .error .valueError
  else .ok ((1 / rate) * x)

/-- Exception-aware initial state (source lines 10–24): the first
interarrival draw can fail on an invalid arrival rate. -/
def initStateE (arrival_rate : ℚ) (u : ℕ → ℚ) : Except SimErr SimState := do
  let ia ← expDraw arrival_rate (u 0)
  pure
    { current_time := 0
      server_busy := false
      server_start_time := 0
      next_departure_time := none
      queue := []
      customer_stats := []
      last_event_time := 0
      state_time := [(0, 0)]
      current_state := 0
      next_arrival_time := ia
      idx := 1 }

/-- Exception-aware loop body: identical to `stepT` except that the
random draws can fail.  In the arrival branch the interarrival draw
(source line 38) precedes the service draw (source line 44). -/
def stepE (arrival_rate service_rate : ℚ) (u : ℕ → ℚ) (s : SimState) :
    Except SimErr SimState :=
  if leQO s.next_arrival_time s.next_departure_time then do
    let t := s.next_arrival_time
    let st := bump s.state_time s.current_state (t - s.last_event_time)
    let ia ← expDraw arrival_rate (u s.idx)
    if s.server_busy then
      pure
        { s with
          state_time := st
          last_event_time := t
          current_time := t
          next_arrival_time := t + ia
          idx := s.idx + 1
          queue := s.queue ++ [t]
          current_state := s.current_state + 1 }
    else do
      let svc ← expDraw service_rate (u (s.idx + 1))
      pure
        { s with
          state_time := st
          last_event_time := t
          current_time := t
          next_arrival_time := t + ia
          idx := s.idx + 2
          server_busy := true
          server_start_time := t
          next_departure_time := some (t + svc)
          customer_stats := s.customer_stats ++ [(t, t, t + svc)]
          current_state := s.current_state + 1 }
  else
    match s.next_departure_time with
    | none => pure s
    | some d =>
      let st := bump s.state_time s.current_state (d - s.last_event_time)
      match s.queue with
      | [] =>
        pure
          { s with
            state_time := st
            last_event_time := d
            current_time := d
            current_state := s.current_state - 1
            server_busy := false
            next_departure_time := none }
      | a :: rest => do
        let svc ← expDraw service_rate (u s.idx)
        pure
          { s with
            state_time := st
            last_event_time := d
            current_time := d
            current_state := s.current_state - 1
            queue := rest
            next_departure_time := some (d + svc)
            customer_stats := s.customer_stats ++ [(a, d, d + svc)]
            server_start_time := d
            idx := s.idx + 1 }

/-- Exception-aware event loop. -/
def runE (arrival_rate service_rate simulation_time : ℚ) (u : ℕ → ℚ) :
    ℕ → SimState → Except SimErr SimState
  | 0, s => pure s
  | fuel + 1, s =>
    if s.current_time < simulation_time then do
      let s1 ← stepE arrival_rate service_rate u s
      runE arrival_rate service_rate simulation_time u fuel s1
    else pure s

/-- Exception-aware statistics phase: the divisions by
`simulation_time` (source lines 106, 110, 111, 114, the first of which
is always executed) raise `ZeroDivisionError` when the horizon is zero;
otherwise the phase is the pure computation `computeStats`. -/
def computeStatsE (simulation_time : ℚ) (s : SimState) :
    Except SimErr SimResult :=
  if simulation_time = 0 then .error .zeroDivisionError
  else .ok (computeStats simulation_time s)

/-- The engine entry point `simulate_mm1_queue(arrival_rate,
service_rate, simulation_time, seed)`.  The global random state is the
stream `globalStream`; `np.random.seed(seed)` (executed only when a
seed is given, source lines 6–8) replaces it by `seedStream seed`, the
stream the seeded generator produces. -/
def simulate_mm1_queue (seedStream : ℕ → ℕ → ℚ) (globalStream : ℕ → ℚ)
    (arrival_rate service_rate simulation_time : ℚ) (seed : Option ℕ)
    (fuel : ℕ) : Except SimErr SimResult := do
  let u := match seed with
    | some sd => seedStream sd
    | none => globalStream
  let s0 ← initStateE arrival_rate u
  let s1 ← runE arrival_rate service_rate simulation_time u fuel s0
  computeStatsE simulation_time (finalizeLedger simulation_time s1)

/-- Whether a fallible run returned a result rather than raising. -/
def isOkRun : Except SimErr SimResult → Bool
  | .ok _ => true
  | .error _ => false

/-- Number of recorded customers whose departure lies strictly beyond
the horizon. -/
def countGT (simulation_time : ℚ) (l : List Customer) : ℕ :=
  (l.filter fun r => decide (simulation_time < r.2.2)).length

/-- The customer records form a chain of service intervals starting no
earlier than `c`: each record satisfies
`0 ≤ arrival ≤ service_start ≤ departure`, the first service start is
at least `c`, and each departure precedes the next service start. -/
def ChainFrom : ℚ → List Customer → Prop
  | _, [] => True
  | c, r :: rest =>
    0 ≤ r.1 ∧ r.1 ≤ r.2.1 ∧ r.2.1 ≤ r.2.2 ∧ c ≤ r.2.1 ∧ ChainFrom r.2.2 rest

/-- The loop invariant of the event loop, relative to the horizon
`simulation_time` (only the record-count bounds depend on it). -/
structure Inv (simulation_time : ℚ) (s : SimState) : Prop where
  last_eq : s.last_event_time = s.current_time
  time_nonneg : 0 ≤ s.current_time
  arr_ge : s.current_time ≤ s.next_arrival_time
  dep_ge : ∀ d, s.next_departure_time = some d → s.current_time ≤ d
  busy_dep : s.next_departure_time = none ↔ s.server_busy = false
  idle_queue : s.server_busy = false → s.queue = []
  count_eq :
    s.current_state = s.queue.length + (if s.server_busy then 1 else 0)
  queue_mem : ∀ a ∈ s.queue, 0 ≤ a ∧ a ≤ s.current_time
  ledger_sum : ledgerSum s.state_time = s.last_event_time
  ledger_nonneg : ∀ p ∈ s.state_time, 0 ≤ p.2
  recs_chain : ChainFrom 0 s.customer_stats
  busy_last :
    s.server_busy = true →
      ∃ a d, s.customer_stats.getLast? = some (a, s.server_start_time, d) ∧
        s.next_departure_time = some d
  idle_recs :
    s.server_busy = false → ∀ r ∈ s.customer_stats, r.2.2 ≤ s.current_time
  nonlast_recs : ∀ r ∈ s.customer_stats.dropLast, r.2.2 ≤ s.current_time
  cnt_lt :
    s.current_time < simulation_time →
      countGT simulation_time s.customer_stats ≤ 1
  cnt_le : countGT simulation_time s.customer_stats ≤ 2

/-- Sample stream on which the final arrival event overshoots the
horizon 10: arrival at 4, service 4–6, next arrival at 24 starting
service past the horizon. -/
def overshootStream : ℕ → ℚ := fun k => [4, 20, 2, 100, 1].getD k 0

/-- Constant sample stream used to instantiate proved theorems. -/
def unitStream : ℕ → ℚ := fun _ => 1

/-- Constant seeded generator family used to instantiate theorems. -/
def unitSeedGen : ℕ → ℕ → ℚ := fun _ _ => 1

/-- Concrete state with an exact arrival/departure tie at time 5, used
to instantiate the tie-break theorem. -/
def tieState : SimState :=
  { initState 1 unitStream with
    next_arrival_time := 5
    next_departure_time := some 5
    server_busy := true }

theorem ledgerSum_cons (p : ℤ × ℚ) (m : List (ℤ × ℚ)) :
    ledgerSum (p :: m) = p.2 + ledgerSum m := by
  simp [ledgerSum]

theorem bump_sum (m : List (ℤ × ℚ)) (k : ℤ) (d : ℚ) :
    ledgerSum (bump m k d) = ledgerSum m + d := by
  induction m with
  | nil => simp [bump, ledgerSum]
  | cons p rest ih =>
    obtain ⟨k0, v⟩ := p
    by_cases h : k = k0
    · simp only [bump, if_pos h, ledgerSum_cons]
      ring
    · simp only [bump, if_neg h, ledgerSum_cons, ih]
      ring

theorem bump_nonneg (m : List (ℤ × ℚ)) (k : ℤ) (d : ℚ) (hd : 0 ≤ d)
    (hm : ∀ p ∈ m, 0 ≤ p.2) : ∀ p ∈ bump m k d, 0 ≤ p.2 := by
  induction m with
  | nil =>
    intro p hp
    simp [bump] at hp
    rw [hp]
    exact hd
  | cons q rest ih =>
    obtain ⟨k0, v⟩ := q
    intro p hp
    by_cases h : k = k0
    · simp only [bump, if_pos h] at hp
      rcases List.mem_cons.mp hp with h1 | h1
      · rw [h1]
        have hv : 0 ≤ v := hm (k0, v) (by simp)
        have : (0 : ℚ) ≤ v + d := by linarith
        simpa using this
      · exact hm p (by simp [h1])
    · simp only [bump, if_neg h] at hp
      rcases List.mem_cons.mp hp with h1 | h1
      · rw [h1]
        exact hm (k0, v) (by simp)
      · exact ih (fun q hq => hm q (by simp [hq])) p h1

theorem ledgerSum_nonneg (m : List (ℤ × ℚ)) (hm : ∀ p ∈ m, 0 ≤ p.2) :
    0 ≤ ledgerSum m := by
  induction m with
  | nil => simp [ledgerSum]
  | cons q rest ih =>
    rw [ledgerSum_cons]
    have h1 : 0 ≤ q.2 := hm q (by simp)
    have h2 : 0 ≤ ledgerSum rest := ih fun p hp => hm p (by simp [hp])
    linarith

theorem entry_le_sum (m : List (ℤ × ℚ)) (hm : ∀ p ∈ m, 0 ≤ p.2) :
    ∀ p ∈ m, p.2 ≤ ledgerSum m := by
  induction m with
  | nil => simp
  | cons q rest ih =>
    intro p hp
    rw [ledgerSum_cons]
    have hrest : ∀ r ∈ rest, 0 ≤ r.2 := fun r hr => hm r (by simp [hr])
    rcases List.mem_cons.mp hp with h | h
    · rw [h]
      have := ledgerSum_nonneg rest hrest
      linarith
    · have h1 := ih hrest p h
      have h2 : 0 ≤ q.2 := hm q (by simp)
      linarith

theorem leQO_some_iff {a b : ℚ} : leQO a (some b) = true ↔ a ≤ b := by
  simp [leQO]

theorem leQO_false {a : ℚ} {o : Option ℚ} (h : leQO a o = false) :
    ∃ b, o = some b ∧ b < a := by
  cases o with
  | none => simp [leQO] at h
  | some b =>
    refine ⟨b, rfl, ?_⟩
    simp [leQO] at h
    exact h

theorem countGT_append_le (T : ℚ) (l : List Customer) (r : Customer) :
    countGT T (l ++ [r]) ≤ countGT T l + 1 := by
  simp only [countGT, List.filter_append, List.length_append]
  have : (List.filter (fun r => decide (T < r.2.2)) [r]).length ≤ 1 := by
    simp [List.filter_cons]
    split <;> simp
  omega

theorem countGT_eq_zero {T : ℚ} {l : List Customer}
    (h : ∀ r ∈ l, r.2.2 ≤ T) : countGT T l = 0 := by
  simp only [countGT, List.length_eq_zero, List.filter_eq_nil_iff]
  intro r hr
  simpa using h r hr

theorem length_filter_split (l : List Customer) (T : ℚ) :
    l.length = (l.filter fun r => decide (r.2.2 ≤ T)).length + countGT T l := by
  induction l with
  | nil => simp [countGT]
  | cons r rest ih =>
    by_cases h : r.2.2 ≤ T
    · have h2 : ¬ T < r.2.2 := not_lt.mpr h
      simp [countGT, List.filter_cons, h, h2] at ih ⊢
      omega
    · have h2 : T < r.2.2 := not_le.mp h
      simp [countGT, List.filter_cons, h, h2] at ih ⊢
      omega

theorem sum_map_div {α : Type} (l : List α) (f : α → ℚ) (T : ℚ) :
    (l.map fun x => f x / T).sum = (l.map f).sum / T := by
  induction l with
  | nil => simp
  | cons a rest ih => simp [ih, add_div]

theorem chainFrom_mono {c c' : ℚ} {l : List Customer} (h : c' ≤ c) :
    ChainFrom c l → ChainFrom c' l := by
  cases l with
  | nil => intro; trivial
  | cons r rest =>
    intro hc
    obtain ⟨h1, h2, h3, h4, h5⟩ := hc
    exact ⟨h1, h2, h3, le_trans h h4, h5⟩

theorem chainFrom_mem {c : ℚ} {l : List Customer} (hc : ChainFrom c l) :
    ∀ r ∈ l, 0 ≤ r.1 ∧ r.1 ≤ r.2.1 ∧ r.2.1 ≤ r.2.2 := by
  induction l generalizing c with
  | nil => simp
  | cons q rest ih =>
    obtain ⟨h1, h2, h3, h4, h5⟩ := hc
    intro r hr
    rcases List.mem_cons.mp hr with h | h
    · rw [h]
      exact ⟨h1, h2, h3⟩
    · exact ih h5 r h

theorem chainFrom_le_last {c : ℚ} {l : List Customer} {r : Customer}
    (h : ChainFrom c (l ++ [r])) : c ≤ r.2.1 := by
  induction l generalizing c with
  | nil => exact h.2.2.2.1
  | cons q rest ih =>
    obtain ⟨_, _, h3, h4, h5⟩ := h
    exact le_trans (le_trans h4 h3) (ih h5)

theorem chainFrom_d_le {c : ℚ} {l : List Customer} {r : Customer}
    (h : ChainFrom c (l ++ [r])) : ∀ x ∈ l, x.2.2 ≤ r.2.1 := by
  induction l generalizing c with
  | nil => simp
  | cons q rest ih =>
    obtain ⟨_, _, _, _, h5⟩ := h
    intro x hx
    rcases List.mem_cons.mp hx with h | h
    · rw [h]
      exact chainFrom_le_last h5
    · exact ih h5 x h

theorem chainFrom_append_left {c : ℚ} {l : List Customer} {r : Customer}
    (h : ChainFrom c (l ++ [r])) : ChainFrom c l := by
  induction l generalizing c with
  | nil => trivial
  | cons q rest ih =>
    obtain ⟨h1, h2, h3, h4, h5⟩ := h
    exact ⟨h1, h2, h3, h4, ih h5⟩

theorem chainFrom_append {c : ℚ} {l : List Customer} {r : Customer}
    (hl : ChainFrom c l) (h1 : 0 ≤ r.1) (h2 : r.1 ≤ r.2.1)
    (h3 : r.2.1 ≤ r.2.2) (h4 : c ≤ r.2.1)
    (h5 : ∀ x ∈ l, x.2.2 ≤ r.2.1) : ChainFrom c (l ++ [r]) := by
  induction l generalizing c with
  | nil => exact ⟨h1, h2, h3, h4, trivial⟩
  | cons q rest ih =>
    obtain ⟨g1, g2, g3, g4, g5⟩ := hl
    exact ⟨g1, g2, g3, g4,
      ih g5 (h5 q (by simp)) fun x hx => h5 x (by simp [hx])⟩

theorem completedBusy_nonneg {c : ℚ} {l : List Customer} (T : ℚ)
    (hc : ChainFrom c l) : 0 ≤ completedBusy l T := by
  unfold completedBusy
  apply List.sum_nonneg
  intro x hx
  simp only [List.mem_map] at hx
  obtain ⟨r, hr, rfl⟩ := hx
  have h := chainFrom_mem hc r (List.mem_of_mem_filter hr)
  linarith [h.2.2]

theorem completedBusy_cons_in {r : Customer} {rest : List Customer} {T : ℚ}
    (hd : r.2.2 ≤ T) :
    completedBusy (r :: rest) T = (r.2.2 - r.2.1) + completedBusy rest T := by
  simp [completedBusy, List.filter_cons, hd]

theorem completedBusy_cons_out {r : Customer} {rest : List Customer} {T : ℚ}
    (hd : ¬ r.2.2 ≤ T) :
    completedBusy (r :: rest) T = completedBusy rest T := by
  simp [completedBusy, List.filter_cons, hd]

theorem completedBusy_le {c : ℚ} {l : List Customer} {T : ℚ}
    (hc : ChainFrom c l) : completedBusy l T ≤ max 0 (T - c) := by
  induction l generalizing c with
  | nil => simp [completedBusy, le_max_iff]
  | cons r rest ih =>
    obtain ⟨h1, h2, h3, h4, h5⟩ := hc
    by_cases hd : r.2.2 ≤ T
    · have hrest := ih h5
      rw [completedBusy_cons_in hd]
      have hmax : max 0 (T - r.2.2) = T - r.2.2 := max_eq_right (by linarith)
      rw [hmax] at hrest
      have hle : (r.2.2 - r.2.1) + completedBusy rest T ≤ T - c := by linarith
      exact le_trans hle (le_max_right 0 (T - c))
    · have hrest := ih h5
      rw [completedBusy_cons_out hd]
      refine le_trans hrest (max_le_max le_rfl ?_)
      linarith

theorem completedBusy_le_min {c M : ℚ} {l : List Customer} {T : ℚ}
    (hc : ChainFrom c l) (hM : ∀ r ∈ l, r.2.2 ≤ M) :
    completedBusy l T ≤ max 0 (min T M - c) := by
  induction l generalizing c with
  | nil => simp [completedBusy, le_max_iff]
  | cons r rest ih =>
    obtain ⟨h1, h2, h3, h4, h5⟩ := hc
    have hrM : r.2.2 ≤ M := hM r (by simp)
    have hM2 : ∀ x ∈ rest, x.2.2 ≤ M := fun x hx => hM x (by simp [hx])
    by_cases hd : r.2.2 ≤ T
    · have hrest := ih h5 hM2
      rw [completedBusy_cons_in hd]
      have hmin : r.2.2 ≤ min T M := le_min hd hrM
      have hmax : max 0 (min T M - r.2.2) = min T M - r.2.2 :=
        max_eq_right (by linarith)
      rw [hmax] at hrest
      have hle : (r.2.2 - r.2.1) + completedBusy rest T ≤ min T M - c := by
        linarith
      exact le_trans hle (le_max_right 0 (min T M - c))
    · have hrest := ih h5 hM2
      rw [completedBusy_cons_out hd]
      refine le_trans hrest (max_le_max le_rfl ?_)
      linarith

theorem completedBusy_append_out (l : List Customer) (r : Customer) (T : ℚ)
    (h : ¬ r.2.2 ≤ T) : completedBusy (l ++ [r]) T = completedBusy l T := by
  simp [completedBusy, List.filter_append, List.filter_cons, h]

theorem eq_dropLast_append_last {α : Type} {l : List α} {x : α}
    (hx : l.getLast? = some x) : l = l.dropLast ++ [x] := by
  have hne : l ≠ [] := by
    intro h
    rw [h] at hx
    simp at hx
  have hlast : l.getLast hne = x := by
    have h2 := List.getLast?_eq_getLast l hne
    rw [hx] at h2
    exact (Option.some.inj h2).symm
  have hsplit := List.dropLast_append_getLast hne
  rw [hlast] at hsplit
  exact hsplit.symm

theorem mem_dropLast_or_last {α : Type} {l : List α} {x : α}
    (hx : l.getLast? = some x) : ∀ r ∈ l, r ∈ l.dropLast ∨ r = x := by
  intro r hr
  rw [eq_dropLast_append_last hx] at hr
  rcases List.mem_append.mp hr with h | h
  · exact Or.inl h
  · right
    simpa using h

theorem draw_nonneg {rate x : ℚ} (hr : 0 < rate) (hx : 0 ≤ x) :
    0 ≤ (1 / rate) * x :=
  mul_nonneg (by positivity) hx

theorem inv_stepArrival {T ar sr : ℚ} {u : ℕ → ℚ} {s : SimState}
    (har : 0 < ar) (hsr : 0 < sr) (hu : ∀ k, 0 ≤ u k)
    (hinv : Inv T s) (hlt : s.current_time < T)
    (hA : leQO s.next_arrival_time s.next_departure_time = true) :
    Inv T (stepArrival ar sr u s) := by
  have htc : s.current_time ≤ s.next_arrival_time := hinv.arr_ge
  have ht0 : 0 ≤ s.next_arrival_time := le_trans hinv.time_nonneg htc
  have hia : 0 ≤ 1 / ar * u s.idx := draw_nonneg har (hu _)
  have hsvc : 0 ≤ 1 / sr * u (s.idx + 1) := draw_nonneg hsr (hu _)
  have hsum : ledgerSum (bump s.state_time s.current_state
      (s.next_arrival_time - s.last_event_time)) = s.next_arrival_time := by
    rw [bump_sum, hinv.ledger_sum, hinv.last_eq]
    ring
  have hnn : ∀ p ∈ bump s.state_time s.current_state
      (s.next_arrival_time - s.last_event_time), 0 ≤ p.2 := by
    refine bump_nonneg _ _ _ ?_ hinv.ledger_nonneg
    rw [hinv.last_eq]
    linarith
  by_cases hb : s.server_busy = true
  · simp only [stepArrival]
    rw [if_pos hb]
    refine
      { last_eq := rfl
        time_nonneg := ht0
        arr_ge := le_add_of_nonneg_right hia
        dep_ge := ?_
        busy_dep := hinv.busy_dep
        idle_queue := ?_
        count_eq := ?_
        queue_mem := ?_
        ledger_sum := hsum
        ledger_nonneg := hnn
        recs_chain := hinv.recs_chain
        busy_last := fun _ => hinv.busy_last hb
        idle_recs := ?_
        nonlast_recs := ?_
        cnt_lt := fun _ => hinv.cnt_lt hlt
        cnt_le := hinv.cnt_le }
    · intro d hd
      have hd2 : s.next_departure_time = some d := hd
      rw [hd2] at hA
      exact leQO_some_iff.mp hA
    · intro h
      have h2 : s.server_busy = false := h
      rw [hb] at h2
      exact Bool.noConfusion h2
    · have hg : s.current_state + 1 =
          ((s.queue ++ [s.next_arrival_time]).length : ℤ) +
            (if s.server_busy = true then (1 : ℤ) else 0) := by
        rw [hinv.count_eq, hb, List.length_append]
        simp
      exact hg
    · intro a ha
      have ha2 : a ∈ s.queue ++ [s.next_arrival_time] := ha
      rcases List.mem_append.mp ha2 with h | h
      · obtain ⟨h1, h2⟩ := hinv.queue_mem a h
        exact ⟨h1, le_trans h2 htc⟩
      · have h3 := List.mem_singleton.mp h
        rw [h3]
        exact ⟨ht0, le_refl _⟩
    · intro h
      have h2 : s.server_busy = false := h
      rw [hb] at h2
      exact Bool.noConfusion h2
    · intro r hr
      have hr2 : r ∈ s.customer_stats.dropLast := hr
      exact le_trans (hinv.nonlast_recs r hr2) htc
  · have hb2 : s.server_busy = false := by simpa using hb
    simp only [stepArrival]
    rw [if_neg hb]
    refine
      { last_eq := rfl
        time_nonneg := ht0
        arr_ge := le_add_of_nonneg_right hia
        dep_ge := ?_
        busy_dep := ?_
        idle_queue := ?_
        count_eq := ?_
        queue_mem := ?_
        ledger_sum := hsum
        ledger_nonneg := hnn
        recs_chain := ?_
        busy_last := ?_
        idle_recs := ?_
        nonlast_recs := ?_
        cnt_lt := ?_
        cnt_le := ?_ }
    · intro d hd
      have hd2 : some (s.next_arrival_time + 1 / sr * u (s.idx + 1)) =
          some d := hd
      rw [← Option.some.inj hd2]
      exact le_add_of_nonneg_right hsvc
    · exact ⟨fun h => Option.noConfusion h, fun h => Bool.noConfusion h⟩
    · intro h
      exact Bool.noConfusion h
    · have hg : s.current_state + 1 = (s.queue.length : ℤ) +
          (if (true : Bool) = true then (1 : ℤ) else 0) := by
        rw [hinv.count_eq, hb2]
        simp
      exact hg
    · intro a ha
      have ha2 : a ∈ s.queue := ha
      obtain ⟨h1, h2⟩ := hinv.queue_mem a ha2
      exact ⟨h1, le_trans h2 htc⟩
    · exact chainFrom_append hinv.recs_chain ht0 (le_refl _)
        (le_add_of_nonneg_right hsvc) ht0
        fun x hx => le_trans (hinv.idle_recs hb2 x hx) htc
    · intro _
      exact ⟨s.next_arrival_time,
        s.next_arrival_time + 1 / sr * u (s.idx + 1),
        List.getLast?_concat _, rfl⟩
    · intro h
      exact Bool.noConfusion h
    · intro r hr
      have hr2 : r ∈ (s.customer_stats ++ [(s.next_arrival_time,
          s.next_arrival_time,
          s.next_arrival_time + 1 / sr * u (s.idx + 1))]).dropLast := hr
      rw [List.dropLast_concat] at hr2
      exact le_trans (hinv.idle_recs hb2 r hr2) htc
    · intro h
      have h2 : s.next_arrival_time < T := h
      have hz : countGT T s.customer_stats = 0 := by
        refine countGT_eq_zero fun r hr => ?_
        exact le_of_lt (lt_of_le_of_lt
          (le_trans (hinv.idle_recs hb2 r hr) htc) h2)
      have hle := countGT_append_le T s.customer_stats
        (s.next_arrival_time, s.next_arrival_time,
          s.next_arrival_time + 1 / sr * u (s.idx + 1))
      have hg : countGT T (s.customer_stats ++ [(s.next_arrival_time,
          s.next_arrival_time,
          s.next_arrival_time + 1 / sr * u (s.idx + 1))]) ≤ 1 := by
        omega
      exact hg
    · have h1 := hinv.cnt_lt hlt
      have hle := countGT_append_le T s.customer_stats
        (s.next_arrival_time, s.next_arrival_time,
          s.next_arrival_time + 1 / sr * u (s.idx + 1))
      have hg : countGT T (s.customer_stats ++ [(s.next_arrival_time,
          s.next_arrival_time,
          s.next_arrival_time + 1 / sr * u (s.idx + 1))]) ≤ 2 := by
        omega
      exact hg

theorem inv_stepDeparture {T sr : ℚ} {u : ℕ → ℚ} {s : SimState}
    (hsr : 0 < sr) (hu : ∀ k, 0 ≤ u k)
    (hinv : Inv T s) (hlt : s.current_time < T)
    (hA : leQO s.next_arrival_time s.next_departure_time = false) :
    Inv T (stepDeparture sr u s) := by
  obtain ⟨dv, hdv, harr⟩ := leQO_false hA
  have hbusy : s.server_busy = true := by
    cases hsb : s.server_busy with
    | false =>
      have h2 := hinv.busy_dep.mpr hsb
      rw [hdv] at h2
      exact Option.noConfusion h2
    | true => rfl
  have hcd : s.current_time ≤ dv := hinv.dep_ge dv hdv
  have hd0 : 0 ≤ dv := le_trans hinv.time_nonneg hcd
  have hsvc : 0 ≤ 1 / sr * u s.idx := draw_nonneg hsr (hu _)
  have hsum : ledgerSum (bump s.state_time s.current_state
      (dv - s.last_event_time)) = dv := by
    rw [bump_sum, hinv.ledger_sum, hinv.last_eq]
    ring
  have hnn : ∀ p ∈ bump s.state_time s.current_state
      (dv - s.last_event_time), 0 ≤ p.2 := by
    refine bump_nonneg _ _ _ ?_ hinv.ledger_nonneg
    rw [hinv.last_eq]
    linarith
  obtain ⟨a0, d0, hlast0, hdep0⟩ := hinv.busy_last hbusy
  have hd0dv : d0 = dv := Option.some.inj (hdep0.symm.trans hdv)
  rw [hd0dv] at hlast0
  have hall : ∀ r ∈ s.customer_stats, r.2.2 ≤ dv := by
    intro r hr
    rcases mem_dropLast_or_last hlast0 r hr with h | h
    · exact le_trans (hinv.nonlast_recs r h) hcd
    · rw [h]
  cases hq : s.queue with
  | nil =>
    simp only [stepDeparture, hdv, hq]
    refine
      { last_eq := rfl
        time_nonneg := le_trans hinv.time_nonneg hcd
        arr_ge := le_of_lt harr
        dep_ge := ?_
        busy_dep := ⟨fun _ => rfl, fun _ => rfl⟩
        idle_queue := fun _ => rfl
        count_eq := ?_
        queue_mem := ?_
        ledger_sum := hsum
        ledger_nonneg := hnn
        recs_chain := hinv.recs_chain
        busy_last := ?_
        idle_recs := fun _ => hall
        nonlast_recs := ?_
        cnt_lt := ?_
        cnt_le := hinv.cnt_le }
    · intro d hd
      exact Option.noConfusion hd
    · have hg : s.current_state - 1 = (([] : List ℚ).length : ℤ) +
          (if (false : Bool) = true then (1 : ℤ) else 0) := by
        rw [hinv.count_eq, hbusy, hq]
        simp
      exact hg
    · intro x hx
      have hx2 : x ∈ ([] : List ℚ) := hx
      exact absurd hx2 (List.not_mem_nil x)
    · intro h
      exact Bool.noConfusion h
    · intro r hr
      have hr2 : r ∈ s.customer_stats.dropLast := hr
      exact le_trans (hinv.nonlast_recs r hr2) hcd
    · intro h
      have h2 : dv < T := h
      exact hinv.cnt_lt (lt_of_le_of_lt hcd h2)
  | cons a rest =>
    have hamem : a ∈ s.queue := by
      rw [hq]
      exact List.mem_cons_self a rest
    obtain ⟨ha0, halec⟩ := hinv.queue_mem a hamem
    have hadv : a ≤ dv := le_trans halec hcd
    simp only [stepDeparture, hdv, hq]
    refine
      { last_eq := rfl
        time_nonneg := le_trans hinv.time_nonneg hcd
        arr_ge := le_of_lt harr
        dep_ge := ?_
        busy_dep := ?_
        idle_queue := ?_
        count_eq := ?_
        queue_mem := ?_
        ledger_sum := hsum
        ledger_nonneg := hnn
        recs_chain := ?_
        busy_last := ?_
        idle_recs := ?_
        nonlast_recs := ?_
        cnt_lt := ?_
        cnt_le := ?_ }
    · intro d hd
      have hd2 : some (dv + 1 / sr * u s.idx) = some d := hd
      rw [← Option.some.inj hd2]
      exact le_add_of_nonneg_right hsvc
    · constructor
      · intro h
        exact Option.noConfusion h
      · intro h
        have h2 : s.server_busy = false := h
        rw [hbusy] at h2
        exact Bool.noConfusion h2
    · intro h
      have h2 : s.server_busy = false := h
      rw [hbusy] at h2
      exact Bool.noConfusion h2
    · have hg : s.current_state - 1 = (rest.length : ℤ) +
          (if s.server_busy = true then (1 : ℤ) else 0) := by
        rw [hinv.count_eq, hbusy, hq]
        simp
      exact hg
    · intro x hx
      have hx2 : x ∈ rest := hx
      have hx3 : x ∈ s.queue := by
        rw [hq]
        exact List.mem_cons_of_mem a hx2
      obtain ⟨h1, h2⟩ := hinv.queue_mem x hx3
      exact ⟨h1, le_trans h2 hcd⟩
    · exact chainFrom_append hinv.recs_chain ha0 hadv
        (le_add_of_nonneg_right hsvc) hd0 hall
    · intro _
      exact ⟨a, dv + 1 / sr * u s.idx, List.getLast?_concat _, rfl⟩
    · intro h
      have h2 : s.server_busy = false := h
      rw [hbusy] at h2
      exact Bool.noConfusion h2
    · intro r hr
      have hr2 : r ∈ (s.customer_stats ++
          [(a, dv, dv + 1 / sr * u s.idx)]).dropLast := hr
      rw [List.dropLast_concat] at hr2
      exact hall r hr2
    · intro h
      have h2 : dv < T := h
      have hz : countGT T s.customer_stats = 0 := by
        refine countGT_eq_zero fun r hr => ?_
        exact le_of_lt (lt_of_le_of_lt (hall r hr) h2)
      have hle := countGT_append_le T s.customer_stats
        (a, dv, dv + 1 / sr * u s.idx)
      have hg : countGT T (s.customer_stats ++
          [(a, dv, dv + 1 / sr * u s.idx)]) ≤ 1 := by
        omega
      exact hg
    · have h1 := hinv.cnt_lt hlt
      have hle := countGT_append_le T s.customer_stats
        (a, dv, dv + 1 / sr * u s.idx)
      have hg : countGT T (s.customer_stats ++
          [(a, dv, dv + 1 / sr * u s.idx)]) ≤ 2 := by
        omega
      exact hg

theorem inv_step {T ar sr : ℚ} {u : ℕ → ℚ} {s : SimState}
    (har : 0 < ar) (hsr : 0 < sr) (hu : ∀ k, 0 ≤ u k)
    (hinv : Inv T s) (hlt : s.current_time < T) :
    Inv T (stepT ar sr u s) := by
  unfold stepT
  by_cases h : leQO s.next_arrival_time s.next_departure_time = true
  · rw [if_pos h]
    exact inv_stepArrival har hsr hu hinv hlt h
  · rw [if_neg h]
    exact inv_stepDeparture hsr hu hinv hlt (by simpa using h)

theorem inv_init {T ar : ℚ} {u : ℕ → ℚ} (har : 0 < ar) (hu : ∀ k, 0 ≤ u k) :
    Inv T (initState ar u) := by
  refine
    { last_eq := rfl
      time_nonneg := le_refl 0
      arr_ge := draw_nonneg har (hu 0)
      dep_ge := fun d hd => Option.noConfusion hd
      busy_dep := ⟨fun _ => rfl, fun _ => rfl⟩
      idle_queue := fun _ => rfl
      count_eq := by simp [initState]
      queue_mem := fun a ha => absurd ha (List.not_mem_nil a)
      ledger_sum := by simp [initState, ledgerSum]
      ledger_nonneg := ?_
      recs_chain := trivial
      busy_last := fun h => Bool.noConfusion h
      idle_recs := fun _ r hr => absurd hr (List.not_mem_nil r)
      nonlast_recs := fun r hr => absurd hr (List.not_mem_nil r)
      cnt_lt := fun _ => by simp [initState, countGT]
      cnt_le := by simp [initState, countGT] }
  intro p hp
  have h2 : p ∈ [((0 : ℤ), (0 : ℚ))] := hp
  have h3 := List.mem_singleton.mp h2
  rw [h3]

theorem inv_run {T ar sr : ℚ} {u : ℕ → ℚ}
    (har : 0 < ar) (hsr : 0 < sr) (hu : ∀ k, 0 ≤ u k) :
    ∀ (fuel : ℕ) (s : SimState), Inv T s → Inv T (runT ar sr T u fuel s)
  | 0, _, hinv => hinv
  | fuel + 1, s, hinv => by
    unfold runT
    by_cases h : s.current_time < T
    · rw [if_pos h]
      exact inv_run har hsr hu fuel _ (inv_step har hsr hu hinv h)
    · rw [if_neg h]
      exact hinv

theorem inv_finalSimState {T ar sr : ℚ} {u : ℕ → ℚ}
    (har : 0 < ar) (hsr : 0 < sr) (hu : ∀ k, 0 ≤ u k) (fuel : ℕ) :
    Inv T (finalSimState ar sr T u fuel) :=
  inv_run har hsr hu fuel _ (inv_init har hu)

theorem stepArrival_count (ar sr : ℚ) (u : ℕ → ℚ) (s : SimState) :
    (stepArrival ar sr u s).current_state = s.current_state + 1 := by
  simp only [stepArrival]
  by_cases hb : s.server_busy = true
  · rw [if_pos hb]
  · rw [if_neg hb]

theorem stepDeparture_count {d : ℚ} (sr : ℚ) (u : ℕ → ℚ) (s : SimState)
    (hd : s.next_departure_time = some d) :
    (stepDeparture sr u s).current_state = s.current_state - 1 := by
  simp only [stepDeparture, hd]
  cases hq : s.queue with
  | nil => simp only [hq]
  | cons a rest => simp only [hq]

theorem ok_bind {α β : Type} (x : α) (f : α → Except SimErr β) :
    (Except.ok x : Except SimErr α) >>= f = f x := rfl

theorem error_bind {α β : Type} (e : SimErr) (f : α → Except SimErr β) :
    (Except.error e : Except SimErr α) >>= f = Except.error e := rfl

theorem pure_eq_ok {α : Type} (x : α) :
    (pure x : Except SimErr α) = .ok x := rfl

theorem expDraw_pos {rate : ℚ} (hr : 0 < rate) (x : ℚ) :
    expDraw rate x = .ok (1 / rate * x) := by
  unfold expDraw
  rw [if_neg (ne_of_gt hr),
    if_neg (not_lt.mpr (le_of_lt (one_div_pos.mpr hr)))]

theorem stepE_ok {ar sr : ℚ} (har : 0 < ar) (hsr : 0 < sr) (u : ℕ → ℚ)
    (s : SimState) : stepE ar sr u s = .ok (stepT ar sr u s) := by
  by_cases h : leQO s.next_arrival_time s.next_departure_time = true
  · by_cases hb : s.server_busy = true
    · simp [stepE, stepT, stepArrival, h, hb, expDraw_pos har,
        expDraw_pos hsr, ok_bind]
    · simp [stepE, stepT, stepArrival, h, hb, expDraw_pos har,
        expDraw_pos hsr, ok_bind]
  · cases hdv : s.next_departure_time with
    | none =>
      rw [hdv] at h
      exact absurd rfl h
    | some d =>
      rw [hdv] at h
      cases hq : s.queue with
      | nil => simp [stepE, stepT, stepDeparture, h, hdv, hq, pure_eq_ok]
      | cons a rest =>
        simp [stepE, stepT, stepDeparture, h, hdv, hq, expDraw_pos hsr,
          ok_bind]

theorem runE_ok {ar sr T : ℚ} (har : 0 < ar) (hsr : 0 < sr) (u : ℕ → ℚ) :
    ∀ (fuel : ℕ) (s : SimState),
      runE ar sr T u fuel s = .ok (runT ar sr T u fuel s)
  | 0, _ => rfl
  | fuel + 1, s => by
    unfold runE runT
    by_cases h : s.current_time < T
    · rw [if_pos h, if_pos h, stepE_ok har hsr]
      simpa using runE_ok har hsr u fuel (stepT ar sr u s)
    · rw [if_neg h, if_neg h]
      rfl

theorem initStateE_ok {ar : ℚ} (har : 0 < ar) (u : ℕ → ℚ) :
    initStateE ar u = .ok (initState ar u) := by
  simp [initStateE, initState, expDraw_pos har]

theorem simulate_mm1_queue_ok {ar sr T : ℚ} (har : 0 < ar) (hsr : 0 < sr)
    (hT : T ≠ 0) (sg : ℕ → ℕ → ℚ) (g : ℕ → ℚ) (seed : Option ℕ) (fuel : ℕ) :
    simulate_mm1_queue sg g ar sr T seed fuel =
      .ok (simulateValid ar sr T
        (match seed with | some sd => sg sd | none => g) fuel) := by
  cases seed with
  | some sd =>
    simp [simulate_mm1_queue, initStateE_ok har, runE_ok har hsr,
      computeStatsE, hT, simulateValid, finalSimState, ok_bind]
  | none =>
    simp [simulate_mm1_queue, initStateE_ok har, runE_ok har hsr,
      computeStatsE, hT, simulateValid, finalSimState, ok_bind]

/-- C1: for every run with positive rates and horizon, the state-time
ledger after the final clamp sums exactly to the horizon, and the
values of `state_probabilities` sum exactly to 1 (the exact-arithmetic
statement of the 1e-9-tolerance claim). -/
theorem ledger_and_probability_sum (ar sr T : ℚ) (u : ℕ → ℚ) (fuel : ℕ)
    (har : 0 < ar) (hsr : 0 < sr) (hT : 0 < T) (hu : ∀ k, 0 ≤ u k) :
    ledgerSum (finalizeLedger T (finalSimState ar sr T u fuel)).state_time
        = T ∧
    ((simulateValid ar sr T u fuel).state_probabilities.map Prod.snd).sum
        = 1 := by
  have hinv := inv_finalSimState (T := T) har hsr hu fuel
  have hsum : ledgerSum (bump (finalSimState ar sr T u fuel).state_time
      (finalSimState ar sr T u fuel).current_state
      (T - (finalSimState ar sr T u fuel).last_event_time)) = T := by
    rw [bump_sum, hinv.ledger_sum, hinv.last_eq]
    ring
  constructor
  · exact hsum
  · have hmap : (simulateValid ar sr T u fuel).state_probabilities =
        (finalizeLedger T (finalSimState ar sr T u fuel)).state_time.map
          fun p => (p.1, p.2 / T) := rfl
    rw [hmap, List.map_map]
    have hcomp : (Prod.snd ∘ fun p : ℤ × ℚ => (p.1, p.2 / T)) =
        fun p : ℤ × ℚ => p.2 / T := rfl
    rw [hcomp, sum_map_div]
    have hsum2 : ((finalizeLedger T
        (finalSimState ar sr T u fuel)).state_time.map Prod.snd).sum = T :=
      hsum
    rw [hsum2]
    exact div_self (ne_of_gt hT)

/-- C5: the event dispatch breaks exact ties in favour of arrivals:
when the pending arrival and departure times are equal the arrival
branch runs, and the departure branch runs exactly when the pending
departure is strictly earlier than the pending arrival. -/
theorem arrival_tie_break (ar sr : ℚ) (u : ℕ → ℚ) (s : SimState) (t : ℚ) :
    (s.next_arrival_time = t → s.next_departure_time = some t →
      stepT ar sr u s = stepArrival ar sr u s) ∧
    (∀ d, s.next_departure_time = some d →
      (stepT ar sr u s = stepDeparture sr u s ↔ d < s.next_arrival_time)) := by
  constructor
  · intro ha hd
    unfold stepT
    rw [if_pos]
    rw [ha, hd]
    exact leQO_some_iff.mpr (le_refl t)
  · intro d hd
    constructor
    · intro hstep
      by_contra hlt
      have hle : s.next_arrival_time ≤ d := not_lt.mp hlt
      have hA : leQO s.next_arrival_time s.next_departure_time = true := by
        rw [hd]
        exact leQO_some_iff.mpr hle
      have hstep2 : stepT ar sr u s = stepArrival ar sr u s := by
        unfold stepT
        rw [if_pos hA]
      have heq : stepArrival ar sr u s = stepDeparture sr u s :=
        hstep2.symm.trans hstep
      have hA1 := stepArrival_count ar sr u s
      have hD1 := stepDeparture_count sr u s hd
      rw [heq, hD1] at hA1
      omega
    · intro hlt
      have hA : leQO s.next_arrival_time s.next_departure_time = false := by
        rw [hd]
        simp [leQO, not_le.mpr hlt]
      unfold stepT
      rw [if_neg]
      rw [hA]
      exact fun hc => Bool.noConfusion hc

/-- C6: with a seed given, the run is a function of the seed stream
alone: two invocations that differ only in the ambient global random
state produce identical results, field for field. -/
theorem seeded_run_deterministic (sg : ℕ → ℕ → ℚ) (g1 g2 : ℕ → ℚ)
    (ar sr T : ℚ) (sd : ℕ) (fuel : ℕ) :
    simulate_mm1_queue sg g1 ar sr T (some sd) fuel =
      simulate_mm1_queue sg g2 ar sr T (some sd) fuel := rfl

/-- C7: the population count starts at 0, every arrival event adds
exactly 1, every departure event subtracts exactly 1, and after any
number of processed events it is never negative. -/
theorem population_count_invariant (ar sr T : ℚ) (u : ℕ → ℚ)
    (har : 0 < ar) (hsr : 0 < sr) (hu : ∀ k, 0 ≤ u k) :
    (initState ar u).current_state = 0 ∧
    (∀ s : SimState, leQO s.next_arrival_time s.next_departure_time = true →
      (stepT ar sr u s).current_state = s.current_state + 1) ∧
    (∀ s : SimState, leQO s.next_arrival_time s.next_departure_time = false →
      (stepT ar sr u s).current_state = s.current_state - 1) ∧
    (∀ fuel : ℕ, 0 ≤ (finalSimState ar sr T u fuel).current_state) := by
  refine ⟨rfl, ?_, ?_, ?_⟩
  · intro s h
    unfold stepT
    rw [if_pos h]
    exact stepArrival_count ar sr u s
  · intro s h
    obtain ⟨d, hd, _⟩ := leQO_false h
    unfold stepT
    rw [if_neg (by rw [h]; exact fun hc => Bool.noConfusion hc)]
    exact stepDeparture_count sr u s hd
  · intro fuel
    have hinv := inv_finalSimState (T := T) har hsr hu fuel
    rw [hinv.count_eq]
    split <;> omega

/-- C8: after initialisation and after every processed event, the
pending-departure sentinel (`none`, modelling infinity) holds exactly
when the server is idle and the waiting line is empty. -/
theorem departure_sentinel_iff (ar sr T : ℚ) (u : ℕ → ℚ)
    (har : 0 < ar) (hsr : 0 < sr) (hu : ∀ k, 0 ≤ u k) :
    ∀ fuel : ℕ,
      ((finalSimState ar sr T u fuel).next_departure_time = none ↔
        ((finalSimState ar sr T u fuel).server_busy = false ∧
          (finalSimState ar sr T u fuel).queue = [])) := by
  intro fuel
  have hinv := inv_finalSimState (T := T) har hsr hu fuel
  constructor
  · intro h
    have hb := hinv.busy_dep.mp h
    exact ⟨hb, hinv.idle_queue hb⟩
  · intro h
    exact hinv.busy_dep.mpr h.1

/-- C9: every completed customer record satisfies
`arrival <= service_start <= departure`, so its queue time is
non-negative and its system time is at least its queue time. -/
theorem completed_customer_time_ordering (ar sr T : ℚ) (u : ℕ → ℚ)
    (fuel : ℕ) (har : 0 < ar) (hsr : 0 < sr) (hT : 0 < T)
    (hu : ∀ k, 0 ≤ u k) :
    ∀ r ∈ (finalSimState ar sr T u fuel).customer_stats, r.2.2 ≤ T →
      (0 ≤ r.2.1 - r.1 ∧ r.2.1 - r.1 ≤ r.2.2 - r.1 ∧
        r.1 ≤ r.2.1 ∧ r.2.1 ≤ r.2.2) := by
  intro r hr _
  have hinv := inv_finalSimState (T := T) har hsr hu fuel
  obtain ⟨h1, h2, h3⟩ := chainFrom_mem hinv.recs_chain r hr
  exact ⟨by linarith, by linarith, h2, h3⟩

/-- C10: at most two recorded customers can depart strictly after the
horizon, so `completed_customers <= total_customers <=
completed_customers + 2`. -/
theorem completed_total_bound (ar sr T : ℚ) (u : ℕ → ℚ) (fuel : ℕ)
    (har : 0 < ar) (hsr : 0 < sr) (hT : 0 < T) (hu : ∀ k, 0 ≤ u k) :
    (simulateValid ar sr T u fuel).completed_customers ≤
        (simulateValid ar sr T u fuel).total_customers ∧
    (simulateValid ar sr T u fuel).total_customers ≤
        (simulateValid ar sr T u fuel).completed_customers + 2 := by
  have hinv := inv_finalSimState (T := T) har hsr hu fuel
  have htot : (simulateValid ar sr T u fuel).total_customers =
      (finalSimState ar sr T u fuel).customer_stats.length := rfl
  have hcomp : (simulateValid ar sr T u fuel).completed_customers =
      ((finalSimState ar sr T u fuel).customer_stats.filter
        fun r => decide (r.2.2 ≤ T)).length := rfl
  have hsplit :=
    length_filter_split (finalSimState ar sr T u fuel).customer_stats T
  have hcnt := hinv.cnt_le
  rw [htot, hcomp]
  omega

/-- C2 (amended): `server_utilization` is at most 1 on every run, and
is non-negative provided the last service start did not exceed the
horizon; a service starting after the horizon (possible, because the
last processed event may overshoot it) makes the partial busy interval
negative and with it the utilization
(`utilization_negative_example`). -/
theorem utilization_bounds_amended (ar sr T : ℚ) (u : ℕ → ℚ) (fuel : ℕ)
    (har : 0 < ar) (hsr : 0 < sr) (hT : 0 < T) (hu : ∀ k, 0 ≤ u k) :
    (simulateValid ar sr T u fuel).server_utilization ≤ 1 ∧
    ((finalSimState ar sr T u fuel).server_start_time ≤ T →
      0 ≤ (simulateValid ar sr T u fuel).server_utilization) := by
  have hinv := inv_finalSimState (T := T) har hsr hu fuel
  have hbusy_eq : (simulateValid ar sr T u fuel).server_busy_time =
      completedBusy (finalSimState ar sr T u fuel).customer_stats T +
        (if ((finalSimState ar sr T u fuel).server_busy &&
            qoGT (finalSimState ar sr T u fuel).next_departure_time T) = true
          then T - (finalSimState ar sr T u fuel).server_start_time
          else 0) := rfl
  suffices h : (simulateValid ar sr T u fuel).server_busy_time ≤ T ∧
      ((finalSimState ar sr T u fuel).server_start_time ≤ T →
        0 ≤ (simulateValid ar sr T u fuel).server_busy_time) by
    obtain ⟨h1, h2⟩ := h
    constructor
    · exact (div_le_one hT).mpr h1
    · intro hsst
      exact div_nonneg (h2 hsst) (le_of_lt hT)
  by_cases hc : ((finalSimState ar sr T u fuel).server_busy &&
      qoGT (finalSimState ar sr T u fuel).next_departure_time T) = true
  · have hc2 := hc
    rw [Bool.and_eq_true] at hc2
    obtain ⟨hb, hgt⟩ := hc2
    obtain ⟨a0, d0, hlast, hdep⟩ := hinv.busy_last hb
    have hgt2 : qoGT (some d0) T = true := by
      rw [← hdep]
      exact hgt
    have hTd0 : T < d0 := by simpa [qoGT] using hgt2
    have hsplit : (finalSimState ar sr T u fuel).customer_stats =
        (finalSimState ar sr T u fuel).customer_stats.dropLast ++
          [(a0, (finalSimState ar sr T u fuel).server_start_time, d0)] :=
      eq_dropLast_append_last hlast
    have hchain := hinv.recs_chain
    rw [hsplit] at hchain
    have hchain_pre := chainFrom_append_left hchain
    have hdle : ∀ x ∈ (finalSimState ar sr T u fuel).customer_stats.dropLast,
        x.2.2 ≤ (finalSimState ar sr T u fuel).server_start_time :=
      chainFrom_d_le hchain
    have hmem : ((a0, (finalSimState ar sr T u fuel).server_start_time, d0) :
        Customer) ∈ (finalSimState ar sr T u fuel).customer_stats.dropLast ++
          [(a0, (finalSimState ar sr T u fuel).server_start_time, d0)] :=
      List.mem_append_right _ (List.mem_singleton.mpr rfl)
    obtain ⟨ha0, ha1, _⟩ := chainFrom_mem hchain _ hmem
    have hsst0 : 0 ≤ (finalSimState ar sr T u fuel).server_start_time :=
      le_trans ha0 ha1
    have hcb : completedBusy (finalSimState ar sr T u fuel).customer_stats T =
        completedBusy
          (finalSimState ar sr T u fuel).customer_stats.dropLast T := by
      conv_lhs => rw [hsplit]
      have hnotle : ¬ (((a0,
          (finalSimState ar sr T u fuel).server_start_time, d0) :
            Customer).2.2 ≤ T) := not_le.mpr hTd0
      exact completedBusy_append_out _ _ _ hnotle
    have hble : completedBusy
        (finalSimState ar sr T u fuel).customer_stats.dropLast T ≤
          max 0 (min T ((finalSimState ar sr T u fuel).server_start_time)
            - 0) :=
      completedBusy_le_min hchain_pre hdle
    have hmax_eq : max 0
        (min T ((finalSimState ar sr T u fuel).server_start_time) - 0) =
          min T ((finalSimState ar sr T u fuel).server_start_time) := by
      rw [sub_zero]
      exact max_eq_right (le_min (le_of_lt hT) hsst0)
    rw [hmax_eq] at hble
    have hmin_le : min T ((finalSimState ar sr T u fuel).server_start_time) ≤
        (finalSimState ar sr T u fuel).server_start_time := min_le_right _ _
    have hcb0 : 0 ≤ completedBusy
        (finalSimState ar sr T u fuel).customer_stats.dropLast T :=
      completedBusy_nonneg T hchain_pre
    constructor
    · rw [hbusy_eq, if_pos hc, hcb]
      linarith
    · intro hsst
      rw [hbusy_eq, if_pos hc, hcb]
      linarith
  · have hble := completedBusy_le (T := T) hinv.recs_chain
    have hmax_eq : max 0 (T - 0) = T := by
      rw [sub_zero]
      exact max_eq_right (le_of_lt hT)
    rw [hmax_eq] at hble
    have hcb0 : 0 ≤ completedBusy
        (finalSimState ar sr T u fuel).customer_stats T :=
      completedBusy_nonneg T hinv.recs_chain
    constructor
    · rw [hbusy_eq, if_neg hc]
      linarith
    · intro _
      rw [hbusy_eq, if_neg hc]
      linarith

/-- C4 (amended): `state_probabilities` is exactly the final ledger
with every value divided by the horizon; all its values lie in `[0, 1]`
provided the final processed event did not overshoot the horizon, and
can otherwise leave `[0, 1]`
(`state_probability_negative_example`). -/
theorem state_probabilities_amended (ar sr T : ℚ) (u : ℕ → ℚ) (fuel : ℕ)
    (har : 0 < ar) (hsr : 0 < sr) (hT : 0 < T) (hu : ∀ k, 0 ≤ u k) :
    (simulateValid ar sr T u fuel).state_probabilities =
      (finalizeLedger T (finalSimState ar sr T u fuel)).state_time.map
        (fun p => (p.1, p.2 / T)) ∧
    ((finalSimState ar sr T u fuel).current_time ≤ T →
      ∀ p ∈ (simulateValid ar sr T u fuel).state_probabilities,
        0 ≤ p.2 ∧ p.2 ≤ 1) := by
  have hinv := inv_finalSimState (T := T) har hsr hu fuel
  refine ⟨rfl, ?_⟩
  intro hle p hp
  have hnn : ∀ q ∈ bump (finalSimState ar sr T u fuel).state_time
      (finalSimState ar sr T u fuel).current_state
      (T - (finalSimState ar sr T u fuel).last_event_time), 0 ≤ q.2 := by
    refine bump_nonneg _ _ _ ?_ hinv.ledger_nonneg
    rw [hinv.last_eq]
    linarith
  have hsumT : ledgerSum (bump (finalSimState ar sr T u fuel).state_time
      (finalSimState ar sr T u fuel).current_state
      (T - (finalSimState ar sr T u fuel).last_event_time)) = T := by
    rw [bump_sum, hinv.ledger_sum, hinv.last_eq]
    ring
  have hp2 : p ∈ (finalizeLedger T
      (finalSimState ar sr T u fuel)).state_time.map
        (fun q => (q.1, q.2 / T)) := hp
  obtain ⟨q, hq, hpq⟩ := List.mem_map.mp hp2
  have hq2 : q ∈ bump (finalSimState ar sr T u fuel).state_time
      (finalSimState ar sr T u fuel).current_state
      (T - (finalSimState ar sr T u fuel).last_event_time) := hq
  have h0 : 0 ≤ q.2 := hnn q hq2
  have h1 : q.2 ≤ T := by
    have h2 := entry_le_sum _ hnn q hq2
    rw [hsumT] at h2
    exact h2
  constructor
  · rw [← hpq]
    exact div_nonneg h0 (le_of_lt hT)
  · rw [← hpq]
    exact (div_le_one hT).mpr h1

/-- C3 (amended): the engine performs no upfront parameter validation.
An arrival rate of exactly 0 fails with the division-by-zero raised
while computing the first interarrival scale, a negative arrival rate
fails with the sampler's ValueError, but a non-positive horizon is not
rejected: with positive rates and a negative horizon the run returns a
normal result without entering the event loop
(`no_error_on_negative_horizon`). -/
theorem parameter_error_behavior (sr T : ℚ) (sg : ℕ → ℕ → ℚ) (g : ℕ → ℚ)
    (seed : Option ℕ) (fuel : ℕ) :
    (∀ ar : ℚ, ar = 0 →
      simulate_mm1_queue sg g ar sr T seed fuel =
        .error .zeroDivisionError) ∧
    (∀ ar : ℚ, ar < 0 →
      simulate_mm1_queue sg g ar sr T seed fuel = .error .valueError) ∧
    (∀ ar : ℚ, 0 < ar → 0 < sr → T < 0 →
      isOkRun (simulate_mm1_queue sg g ar sr T seed fuel) = true) := by
  refine ⟨?_, ?_, ?_⟩
  · intro ar h
    subst h
    rfl
  · intro ar h
    have h1 : ar ≠ 0 := ne_of_lt h
    have h2 : 1 / ar < 0 := one_div_neg.mpr h
    simp [simulate_mm1_queue, initStateE, expDraw, h1, h2, h, error_bind]
  · intro ar har hsr hT
    have hT0 : T ≠ 0 := ne_of_lt hT
    rw [simulate_mm1_queue_ok har hsr hT0 sg g seed fuel]
    rfl

/-- Counterexample to C2 as stated: with valid parameters (rates 1,
horizon 10) and the non-negative exponential sample stream
`overshootStream`, the final service starts at time 24 > 10 and the
server utilization of the run is negative. -/
theorem utilization_negative_example :
    (simulateValid 1 1 10 overshootStream 10).server_utilization < 0 := by
  norm_num [simulateValid, finalSimState, runT, stepT, stepArrival,
    stepDeparture, initState, computeStats, finalizeLedger, completedBusy,
    ledgerSum, bump, leQO, qoGT, overshootStream, List.getD, List.filter_cons]

/-- Counterexample to C4 as stated: in the same overshooting run the
state-probability recorded for population count 1 is -6/5, which lies
outside [0, 1]. -/
theorem state_probability_negative_example :
    ((1 : ℤ), (-6/5 : ℚ)) ∈
      (simulateValid 1 1 10 overshootStream 10).state_probabilities ∧
    ((-6/5 : ℚ) < 0) := by
  norm_num [simulateValid, finalSimState, runT, stepT, stepArrival,
    stepDeparture, initState, computeStats, finalizeLedger, completedBusy,
    ledgerSum, bump, leQO, qoGT, overshootStream, List.getD, List.filter_cons,
    List.mem_cons]

/-- Counterexample to C3 as stated: calling the engine with horizon
-1 <= 0 and positive rates returns a normal result, raising no error at
all. -/
theorem no_error_on_negative_horizon :
    isOkRun (simulate_mm1_queue unitSeedGen unitStream 1 1 (-1) (some 0) 10)
      = true := by
  norm_num [simulate_mm1_queue, initStateE, runE, stepE, computeStatsE,
    expDraw, finalizeLedger, isOkRun, unitSeedGen, unitStream, ok_bind,
    error_bind, pure_eq_ok]

/-- Instantiation of `ledger_and_probability_sum` at concrete inputs. -/
theorem ledger_and_probability_sum_instance :
    ((0 : ℚ) < 1) ∧
    (ledgerSum
        (finalizeLedger 1 (finalSimState 1 1 1 unitStream 3)).state_time = 1 ∧
      ((simulateValid 1 1 1 unitStream 3).state_probabilities.map
        Prod.snd).sum = 1) :=
  ⟨by norm_num,
    ledger_and_probability_sum 1 1 1 unitStream 3 (by norm_num) (by norm_num)
      (by norm_num) fun k => by norm_num [unitStream]⟩

/-- Instantiation of `utilization_bounds_amended` at concrete inputs. -/
theorem utilization_bounds_amended_instance :
    ((finalSimState 1 1 1 unitStream 3).server_start_time ≤ 1) ∧
    (simulateValid 1 1 1 unitStream 3).server_utilization ≤ 1 ∧
    0 ≤ (simulateValid 1 1 1 unitStream 3).server_utilization :=
  ⟨by
    norm_num [finalSimState, runT, stepT, stepArrival, stepDeparture,
      initState, bump, leQO, qoGT, unitStream],
    (utilization_bounds_amended 1 1 1 unitStream 3 (by norm_num) (by norm_num)
      (by norm_num) fun k => by norm_num [unitStream]).1,
    (utilization_bounds_amended 1 1 1 unitStream 3 (by norm_num) (by norm_num)
      (by norm_num) fun k => by norm_num [unitStream]).2
      (by
        norm_num [finalSimState, runT, stepT, stepArrival, stepDeparture,
          initState, bump, leQO, qoGT, unitStream])⟩

/-- Instantiation of `parameter_error_behavior` at concrete inputs. -/
theorem parameter_error_behavior_instance :
    simulate_mm1_queue unitSeedGen unitStream 0 1 5 (some 0) 10 =
        .error .zeroDivisionError ∧
    simulate_mm1_queue unitSeedGen unitStream (-2) 1 5 (some 0) 10 =
        .error .valueError ∧
    isOkRun (simulate_mm1_queue unitSeedGen unitStream 1 1 (-1) (some 0) 10)
        = true :=
  ⟨(parameter_error_behavior 1 5 unitSeedGen unitStream (some 0) 10).1 0 rfl,
    (parameter_error_behavior 1 5 unitSeedGen unitStream (some 0) 10).2.1
      (-2) (by norm_num),
    (parameter_error_behavior 1 (-1) unitSeedGen unitStream (some 0) 10).2.2
      1 (by norm_num) (by norm_num) (by norm_num)⟩

/-- Instantiation of `state_probabilities_amended` at concrete inputs. -/
theorem state_probabilities_amended_instance :
    ((finalSimState 1 1 2 unitStream 5).current_time ≤ 2) ∧
    ((0 : ℤ), (1/2 : ℚ)) ∈
      (simulateValid 1 1 2 unitStream 5).state_probabilities ∧
    (0 ≤ (1/2 : ℚ) ∧ (1/2 : ℚ) ≤ 1) :=
  ⟨by
    norm_num [finalSimState, runT, stepT, stepArrival, stepDeparture,
      initState, bump, leQO, qoGT, unitStream],
    by
      norm_num [simulateValid, finalSimState, runT, stepT, stepArrival,
        stepDeparture, initState, computeStats, finalizeLedger, completedBusy,
        ledgerSum, bump, leQO, qoGT, unitStream, List.filter_cons,
        List.mem_cons],
    (state_probabilities_amended 1 1 2 unitStream 5 (by norm_num)
      (by norm_num) (by norm_num) fun k => by norm_num [unitStream]).2
      (by
        norm_num [finalSimState, runT, stepT, stepArrival, stepDeparture,
          initState, bump, leQO, qoGT, unitStream])
      ((0 : ℤ), (1/2 : ℚ))
      (by
        norm_num [simulateValid, finalSimState, runT, stepT, stepArrival,
          stepDeparture, initState, computeStats, finalizeLedger,
          completedBusy, ledgerSum, bump, leQO, qoGT, unitStream,
          List.filter_cons, List.mem_cons])⟩

/-- Instantiation of `arrival_tie_break` at a state with an exact
arrival/departure tie at time 5. -/
theorem arrival_tie_break_instance :
    stepT 1 1 unitStream tieState = stepArrival 1 1 unitStream tieState :=
  (arrival_tie_break 1 1 unitStream tieState 5).1 rfl rfl

/-- Instantiation of `population_count_invariant` at concrete inputs. -/
theorem population_count_invariant_instance :
    ((0 : ℚ) < 1) ∧ 0 ≤ (finalSimState 1 1 1 unitStream 3).current_state :=
  ⟨by norm_num,
    (population_count_invariant 1 1 1 unitStream (by norm_num) (by norm_num)
      fun k => by norm_num [unitStream]).2.2.2 3⟩

/-- Instantiation of `departure_sentinel_iff` at concrete inputs. -/
theorem departure_sentinel_iff_instance :
    ((finalSimState 1 1 1 unitStream 0).next_departure_time = none ↔
      ((finalSimState 1 1 1 unitStream 0).server_busy = false ∧
        (finalSimState 1 1 1 unitStream 0).queue = [])) :=
  departure_sentinel_iff 1 1 1 unitStream (by norm_num) (by norm_num)
    (fun k => by norm_num [unitStream]) 0

/-- Instantiation of `completed_customer_time_ordering` at a concrete
completed record of a concrete run. -/
theorem completed_customer_time_ordering_instance :
    ((1 : ℚ), (1 : ℚ), (2 : ℚ)) ∈
        (finalSimState 1 1 2 unitStream 5).customer_stats ∧
    (0 ≤ (1 : ℚ) - 1 ∧ (1 : ℚ) - 1 ≤ (2 : ℚ) - 1 ∧
      (1 : ℚ) ≤ 1 ∧ (1 : ℚ) ≤ 2) :=
  ⟨by
    norm_num [finalSimState, runT, stepT, stepArrival, stepDeparture,
      initState, bump, leQO, qoGT, unitStream, List.mem_cons],
    completed_customer_time_ordering 1 1 2 unitStream 5 (by norm_num)
      (by norm_num) (by norm_num) (fun k => by norm_num [unitStream])
      ((1 : ℚ), (1 : ℚ), (2 : ℚ))
      (by
        norm_num [finalSimState, runT, stepT, stepArrival, stepDeparture,
          initState, bump, leQO, qoGT, unitStream, List.mem_cons])
      (by norm_num)⟩

/-- Instantiation of `completed_total_bound` at concrete inputs. -/
theorem completed_total_bound_instance :
    ((0 : ℚ) < 1) ∧
    ((simulateValid 1 1 1 unitStream 3).completed_customers ≤
        (simulateValid 1 1 1 unitStream 3).total_customers ∧
      (simulateValid 1 1 1 unitStream 3).total_customers ≤
        (simulateValid 1 1 1 unitStream 3).completed_customers + 2) :=
  ⟨by norm_num,
    completed_total_bound 1 1 1 unitStream 3 (by norm_num) (by norm_num)
      (by norm_num) fun k => by norm_num [unitStream]⟩

end MM1
